import Mathlib

/-!
Verification of the girc format.go string utilities (Fmt, TrimFmt, StripRaw,
IsValidChannel, IsValidNick, IsValidUser, ToRFC1459, Glob).

A Go string is modelled as a list of byte values (List Nat, each element the
value of one byte, 0..255).
-/

namespace Girc

/-- Tests whether the list p is a prefix of s (strings.HasPrefix). -/
def startsWith : List Nat → List Nat → Bool
  | _, [] => true
  | [], _ :: _ => false
  | a :: s, b :: p => a == b && startsWith s p

/-- Tests whether the list p is a suffix of s (strings.HasSuffix). -/
def endsWith (s p : List Nat) : Bool := startsWith s.reverse p.reverse

/-- Index of the first occurrence of sub in s (strings.Index), none if absent. -/
def strIndex : List Nat → List Nat → Option Nat
  | [], sub => if startsWith [] sub then some 0 else none
  | a :: t, sub =>
    if startsWith (a :: t) sub then some 0 else (strIndex t sub).map (· + 1)

/-- UTF-8 encoding of a code point below 0x800; Go's string(rune) conversion
applied to a byte value. For bytes below 128 this is the byte itself; for
bytes 128..255 it is the two-byte UTF-8 form. -/
def utf8Bytes (n : Nat) : List Nat :=
  if n < 128 then [n] else [192 + n / 64, 128 + n % 64]

/-- One step of the ToRFC1459 loop body: bytes 65..94 get 32 added, all
others pass through Go's string(byte) conversion. -/
def foldByte (b : Nat) : List Nat :=
  if 65 ≤ b && b ≤ 94 then utf8Bytes (b + 32) else utf8Bytes b

/-- ToRFC1459 from format.go: RFC1459 case folding built byte by byte. -/
def ToRFC1459 : List Nat → List Nat
  | [] => []
  | b :: t => foldByte b ++ ToRFC1459 t

/-- Membership of a byte in the allowed channel first-byte set
'!', '#', '&', '*', '+' (the bytes.IndexByte test of format.go). -/
def inChanStarts (b : Nat) : Bool :=
  b == 33 || b == 35 || b == 38 || b == 42 || b == 43

/-- A valid channel-ID byte: ASCII digit or uppercase letter. -/
def isChanIDByte (b : Nat) : Bool := (48 ≤ b && b ≤ 57) || (65 ≤ b && b ≤ 90)

/-- Membership of a byte in the forbidden channel octet set: NUL, BELL, CR,
LF, space, comma, colon (the bytes.IndexByte test of format.go). -/
def isBadOctet (b : Nat) : Bool :=
  b == 0 || b == 7 || b == 13 || b == 10 || b == 32 || b == 44 || b == 58

/-- IsValidChannel from format.go. -/
def IsValidChannel (channel : List Nat) : Bool :=
  if channel.length ≤ 1 || 50 < channel.length then false
  else if !(inChanStarts (channel.headD 0)) then false
  else if channel.headD 0 == 33 &&
      (channel.length < 7 || !(((channel.drop 1).take 5).all isChanIDByte)) then false
  else (channel.drop 1).all (fun b => !(isBadOctet b))

/-- The per-byte test of the IsValidNick loop: the byte continues the loop
(is allowed) when it is in 65..125, in 48..57, or equals 45. -/
def nickByte (b : Nat) : Bool :=
  !((b < 65 || 125 < b) && (b < 48 || 57 < b) && b != 45)

/-- The part of IsValidNick after the fold: check the first byte range and
then every later byte. -/
def nickFolded (n : List Nat) : Bool :=
  if n.headD 0 < 65 || 125 < n.headD 0 then false
  else (n.drop 1).all nickByte

/-- IsValidNick from format.go: case fold, then check first byte and rest. -/
def IsValidNick (nick : List Nat) : Bool :=
  if nick.length ≤ 0 then false
  else nickFolded (ToRFC1459 nick)

/-- The per-byte test of the IsValidUser loop: allowed when in 65..125,
in 48..57, or equal to 45 or 46. -/
def userByte (b : Nat) : Bool :=
  !((b < 65 || 125 < b) && (b < 48 || 57 < b) && b != 45 && b != 46)

/-- The part of IsValidUser after the tilde handling: first byte must pass
the (source-faithful, including the 74 upper bound) alphanumeric test, the
rest must pass userByte. -/
def userBody (m : List Nat) : Bool :=
  if (m.headD 0 < 65 || 74 < m.headD 0) && (m.headD 0 < 97 || 122 < m.headD 0) &&
      (m.headD 0 < 48 || 57 < m.headD 0) then false
  else (m.drop 1).all userByte

/-- The part of IsValidUser after the fold: strip one leading tilde (but
only when at least one byte follows it), then check the body. -/
def userFolded (n : List Nat) : Bool :=
  if n.headD 0 == 126 then
    (if n.length < 2 then false else userBody (n.drop 1))
  else userBody n

/-- IsValidUser from format.go: case fold, strip one leading tilde, then
check the body. -/
def IsValidUser (name : List Nat) : Bool :=
  if name.length ≤ 0 then false
  else userFolded (ToRFC1459 name)

example : IsValidChannel [35, 97] = true := by decide
example : IsValidChannel [35] = false := by decide
example : IsValidChannel [33, 65, 65, 65, 65, 65, 120] = true := by decide
example : IsValidChannel [35, 97, 44, 98] = false := by decide
example : IsValidNick [78, 105, 99, 107, 95, 49] = true := by decide
example : IsValidNick [49, 97] = false := by decide
example : IsValidNick [] = false := by decide
example : IsValidUser [126, 117, 46, 110] = true := by decide
example : IsValidUser [126] = false := by decide
example : ToRFC1459 [91, 84, 69, 83, 84, 93] = [123, 116, 101, 115, 116, 125] := by decide
example : IsValidNick [94, 97] = false := by decide
example : ToRFC1459 [255] = [195, 191] := by decide

/-! Basic facts about the case folder. -/

theorem foldByte_not_upper {b x : Nat} (hx : x ∈ foldByte b) : ¬(65 ≤ x ∧ x ≤ 94) := by
  by_cases h1 : (65 ≤ b && b ≤ 94) = true
  · have hb : 65 ≤ b ∧ b ≤ 94 := by simpa using h1
    have h2 : b + 32 < 128 := by omega
    simp only [foldByte, h1, if_true, utf8Bytes, if_pos h2, List.mem_singleton] at hx
    omega
  · have hb : ¬(65 ≤ b ∧ b ≤ 94) := by simpa using h1
    simp only [foldByte, h1, if_false, Bool.false_eq_true, utf8Bytes] at hx
    by_cases h2 : b < 128
    · simp only [if_pos h2, List.mem_singleton] at hx
      omega
    · simp only [if_neg h2, List.mem_cons, List.mem_singleton, List.not_mem_nil, or_false] at hx
      omega

theorem toRFC1459_not_upper {s : List Nat} {x : Nat} (hx : x ∈ ToRFC1459 s) :
    ¬(65 ≤ x ∧ x ≤ 94) := by
  induction s with
  | nil => simp [ToRFC1459] at hx
  | cons b t ih =>
    simp only [ToRFC1459, List.mem_append] at hx
    rcases hx with h | h
    · exact foldByte_not_upper h
    · exact ih h

theorem foldByte_ne_nil (b : Nat) : foldByte b ≠ [] := by
  simp only [foldByte, utf8Bytes]
  split <;> split <;> simp

theorem toRFC1459_cons_ne_nil (b : Nat) (t : List Nat) : ToRFC1459 (b :: t) ≠ [] := by
  simp only [ToRFC1459]
  intro h
  exact foldByte_ne_nil b (List.append_eq_nil.mp h).1

theorem foldByte_lt_128 {b : Nat} (hb : b < 128) :
    foldByte b = [if 65 ≤ b ∧ b ≤ 94 then b + 32 else b] := by
  simp only [foldByte, utf8Bytes]
  by_cases hr : 65 ≤ b ∧ b ≤ 94
  · rw [if_pos (by simp [hr.1, hr.2]), if_pos (by omega), if_pos hr]
  · rw [if_neg (by simpa using hr), if_pos hb, if_neg hr]

/-- C2 counterexample: on the one-byte input 0xFF, ToRFC1459 produces the
two-byte UTF-8 expansion 0xC3 0xBF, so the output length differs from the
input length and the byte is not passed through unchanged. -/
theorem toRFC1459_expands_high_byte :
    ToRFC1459 [255] = [195, 191] ∧ (ToRFC1459 [255]).length ≠ ([255] : List Nat).length := by
  decide

/-- C2 (amended): on inputs all of whose bytes are below 128, ToRFC1459 adds
32 to every byte in 65..94, passes every other byte through unchanged, and
preserves the length; bytes 128..255 are instead expanded to their two-byte
UTF-8 encoding, so the general claim fails. -/
theorem toRFC1459_ascii_spec (s : List Nat) (h : ∀ b ∈ s, b < 128) :
    ToRFC1459 s = s.map (fun b => if 65 ≤ b ∧ b ≤ 94 then b + 32 else b) ∧
      (ToRFC1459 s).length = s.length := by
  have hmap : ToRFC1459 s = s.map (fun b => if 65 ≤ b ∧ b ≤ 94 then b + 32 else b) := by
    induction s with
    | nil => rfl
    | cons b t ih =>
      have hb : b < 128 := h b (List.mem_cons_self b t)
      have ht := ih (fun x hx => h x (List.mem_cons_of_mem b hx))
      simp only [ToRFC1459, List.map_cons, ht, foldByte_lt_128 hb, List.singleton_append]
  exact ⟨hmap, by simp [hmap]⟩

/-- C2 witness: the amended statement evaluated on a concrete ASCII input. -/
theorem toRFC1459_ascii_spec_witness :
    (∀ b ∈ ([65, 94, 95, 48, 122] : List Nat), b < 128) ∧
      (ToRFC1459 [65, 94, 95, 48, 122] =
          ([65, 94, 95, 48, 122] : List Nat).map
            (fun b => if 65 ≤ b ∧ b ≤ 94 then b + 32 else b) ∧
        (ToRFC1459 [65, 94, 95, 48, 122]).length = ([65, 94, 95, 48, 122] : List Nat).length) :=
  ⟨by decide, toRFC1459_ascii_spec _ (by decide)⟩

/-- C4: the code rejects a caret as the first byte of a nickname even when
the remaining bytes are ASCII letters, because the case folder maps the
caret (0x5E) to a tilde (0x7E) before the 0x41..0x7D first-byte range check;
this contradicts the grammar in the function's own documentation, which
lists the caret among the allowed special first characters. -/
theorem isValidNick_rejects_caret : IsValidNick [94, 97] = false := by decide

/-! Byte-level reformulations of the validator tests. -/

theorem nickByte_iff (b : Nat) :
    nickByte b = true ↔ (65 ≤ b ∧ b ≤ 125) ∨ (48 ≤ b ∧ b ≤ 57) ∨ b = 45 := by
  simp only [nickByte, Bool.not_eq_true', Bool.and_eq_false_iff, Bool.or_eq_false_iff,
    decide_eq_false_iff_not, Nat.not_lt, bne_eq_false_iff_eq]
  omega

theorem userByte_iff (b : Nat) :
    userByte b = true ↔ (65 ≤ b ∧ b ≤ 125) ∨ (48 ≤ b ∧ b ≤ 57) ∨ b = 45 ∨ b = 46 := by
  simp only [userByte, Bool.not_eq_true', Bool.and_eq_false_iff, Bool.or_eq_false_iff,
    decide_eq_false_iff_not, Nat.not_lt, bne_eq_false_iff_eq]
  omega

theorem isChanIDByte_iff (b : Nat) :
    isChanIDByte b = true ↔ (48 ≤ b ∧ b ≤ 57) ∨ (65 ≤ b ∧ b ≤ 90) := by
  simp [isChanIDByte]

theorem notBadOctet_iff (b : Nat) :
    (!(isBadOctet b)) = true ↔
      b ≠ 0 ∧ b ≠ 7 ∧ b ≠ 13 ∧ b ≠ 10 ∧ b ≠ 32 ∧ b ≠ 44 ∧ b ≠ 58 := by
  simp only [isBadOctet, Bool.not_eq_true', Bool.or_eq_false_iff, beq_eq_false_iff_ne, ne_eq]
  omega

theorem inChanStarts_iff (b : Nat) :
    inChanStarts b = true ↔ b = 33 ∨ b = 35 ∨ b = 38 ∨ b = 42 ∨ b = 43 := by
  simp only [inChanStarts, Bool.or_eq_true, beq_iff_eq]
  omega

/-- C6: IsValidNick accepts exactly the non-empty strings whose case-folded
form starts with a byte in 0x41..0x7D and continues with bytes in that
range, digits, or hyphens. -/
theorem isValidNick_iff (n : List Nat) :
    IsValidNick n = true ↔
      n ≠ [] ∧ 65 ≤ (ToRFC1459 n).headD 0 ∧ (ToRFC1459 n).headD 0 ≤ 125 ∧
        ∀ b ∈ (ToRFC1459 n).drop 1, (65 ≤ b ∧ b ≤ 125) ∨ (48 ≤ b ∧ b ≤ 57) ∨ b = 45 := by
  cases n with
  | nil => simp [IsValidNick]
  | cons a t =>
    simp only [IsValidNick, nickFolded, List.length_cons]
    rw [if_neg (by omega)]
    by_cases hc : ((ToRFC1459 (a :: t)).headD 0 < 65 || 125 < (ToRFC1459 (a :: t)).headD 0) = true
    · rw [if_pos hc]
      simp only [Bool.or_eq_true, decide_eq_true_eq] at hc
      simp only [Bool.false_eq_true, false_iff]
      rintro ⟨-, h1, h2, -⟩
      omega
    · rw [if_neg hc]
      simp only [Bool.or_eq_true, decide_eq_true_eq, not_or, Nat.not_lt] at hc
      rw [List.all_eq_true]
      constructor
      · intro h
        exact ⟨by simp, hc.1, hc.2, fun b hb => (nickByte_iff b).mp (h b hb)⟩
      · rintro ⟨-, -, -, h⟩ b hb
        exact (nickByte_iff b).mpr (h b hb)

/-- A byte is ASCII alphanumeric (uppercase letter, lowercase letter, or
digit); used to state the user-name claim. -/
def isAlnum (b : Nat) : Prop :=
  (65 ≤ b ∧ b ≤ 90) ∨ (97 ≤ b ∧ b ≤ 122) ∨ (48 ≤ b ∧ b ≤ 57)

/-- Strip one leading tilde byte, as the user-name claim words it. -/
def stripLeadTilde (n : List Nat) : List Nat :=
  if n.headD 0 = 126 then n.drop 1 else n

theorem userBody_iff {m : List Nat} (hm : m ≠ [])
    (hup : ∀ x ∈ m, ¬(65 ≤ x ∧ x ≤ 94)) :
    userBody m = true ↔
      isAlnum (m.headD 0) ∧
        ∀ b ∈ m.drop 1, (65 ≤ b ∧ b ≤ 125) ∨ (48 ≤ b ∧ b ≤ 57) ∨ b = 45 ∨ b = 46 := by
  have h0 : m.headD 0 ∈ m := by
    cases m with
    | nil => exact absurd rfl hm
    | cons a t => simp
  have hh := hup _ h0
  unfold userBody
  by_cases hc : ((m.headD 0 < 65 || 74 < m.headD 0) && (m.headD 0 < 97 || 122 < m.headD 0) &&
      (m.headD 0 < 48 || 57 < m.headD 0)) = true
  · rw [if_pos hc]
    simp only [Bool.and_eq_true, Bool.or_eq_true, decide_eq_true_eq] at hc
    simp only [Bool.false_eq_true, false_iff, isAlnum]
    rintro ⟨h1, -⟩
    omega
  · rw [if_neg hc]
    simp only [Bool.and_eq_true, Bool.or_eq_true, decide_eq_true_eq, not_and, not_or,
      Nat.not_lt] at hc
    rw [List.all_eq_true]
    constructor
    · intro h
      refine ⟨?_, fun b hb => (userByte_iff b).mp (h b hb)⟩
      simp only [isAlnum]
      omega
    · rintro ⟨-, h⟩ b hb
      exact (userByte_iff b).mpr (h b hb)

/-- C7: IsValidUser accepts exactly the non-empty strings whose case-folded
form, after stripping one leading tilde (which must leave at least one
byte), starts with an alphanumeric byte and continues with bytes in
0x41..0x7D, digits, hyphens, or periods. -/
theorem isValidUser_iff (u : List Nat) :
    IsValidUser u = true ↔
      u ≠ [] ∧ stripLeadTilde (ToRFC1459 u) ≠ [] ∧
        isAlnum ((stripLeadTilde (ToRFC1459 u)).headD 0) ∧
        ∀ b ∈ (stripLeadTilde (ToRFC1459 u)).drop 1,
          (65 ≤ b ∧ b ≤ 125) ∨ (48 ≤ b ∧ b ≤ 57) ∨ b = 45 ∨ b = 46 := by
  cases u with
  | nil => simp [IsValidUser]
  | cons a t =>
    have hne : ToRFC1459 (a :: t) ≠ [] := toRFC1459_cons_ne_nil a t
    have hup : ∀ x ∈ ToRFC1459 (a :: t), ¬(65 ≤ x ∧ x ≤ 94) :=
      fun x hx => toRFC1459_not_upper hx
    simp only [IsValidUser, userFolded, List.length_cons]
    rw [if_neg (by omega)]
    by_cases h126 : (ToRFC1459 (a :: t)).headD 0 = 126
    · have hst : stripLeadTilde (ToRFC1459 (a :: t)) = (ToRFC1459 (a :: t)).drop 1 := by
        unfold stripLeadTilde
        rw [if_pos h126]
      rw [hst, if_pos (beq_iff_eq.mpr h126)]
      by_cases hlen2 : (ToRFC1459 (a :: t)).length < 2
      · rw [if_pos hlen2]
        have hpos : 0 < (ToRFC1459 (a :: t)).length := List.length_pos.mpr hne
        have hdrop : (ToRFC1459 (a :: t)).drop 1 = [] := by
          rw [List.drop_eq_nil_iff]
          omega
        rw [hdrop]
        simp
      · rw [if_neg hlen2]
        have hdropne : (ToRFC1459 (a :: t)).drop 1 ≠ [] := by
          intro h
          rw [List.drop_eq_nil_iff] at h
          omega
        rw [userBody_iff hdropne (fun x hx => hup x (List.drop_subset 1 _ hx))]
        exact ⟨fun h => ⟨List.cons_ne_nil a t, hdropne, h.1, h.2⟩,
          fun h => ⟨h.2.2.1, h.2.2.2⟩⟩
    · have hst : stripLeadTilde (ToRFC1459 (a :: t)) = ToRFC1459 (a :: t) := by
        unfold stripLeadTilde
        rw [if_neg h126]
      rw [hst, if_neg (fun h => h126 (beq_iff_eq.mp h))]
      rw [userBody_iff hne hup]
      exact ⟨fun h => ⟨List.cons_ne_nil a t, hne, h.1, h.2⟩,
        fun h => ⟨h.2.2.1, h.2.2.2⟩⟩

/-- C10: because folding happens before the tilde check, a leading caret
(0x5E, which folds to 0x7E) behaves exactly like a leading tilde in
IsValidUser; in particular a caret followed by letters is accepted. -/
theorem isValidUser_caret_eq_tilde :
    (∀ s : List Nat, IsValidUser (94 :: s) = IsValidUser (126 :: s)) ∧
      IsValidUser [94, 97, 98, 99] = true := by
  constructor
  · intro s
    simp only [IsValidUser, List.length_cons]
    rw [if_neg (by omega), if_neg (by omega)]
    have h1 : ToRFC1459 (94 :: s) = 126 :: ToRFC1459 s := by
      simp [ToRFC1459, foldByte, utf8Bytes]
    have h2 : ToRFC1459 (126 :: s) = 126 :: ToRFC1459 s := by
      simp [ToRFC1459, foldByte, utf8Bytes]
    rw [h1, h2]
  · decide

/-- C5: IsValidChannel accepts exactly the strings of length 2..50 whose
first byte is one of the five allowed channel prefixes, whose channel ID (if
the first byte is an exclamation mark) is five digits or uppercase letters
with total length at least 7, and whose remaining bytes avoid the seven
forbidden octets. -/
theorem isValidChannel_iff (c : List Nat) :
    IsValidChannel c = true ↔
      2 ≤ c.length ∧ c.length ≤ 50 ∧
        (c.headD 0 = 33 ∨ c.headD 0 = 35 ∨ c.headD 0 = 38 ∨ c.headD 0 = 42 ∨ c.headD 0 = 43) ∧
        (c.headD 0 = 33 →
          7 ≤ c.length ∧ ∀ b ∈ (c.drop 1).take 5, (48 ≤ b ∧ b ≤ 57) ∨ (65 ≤ b ∧ b ≤ 90)) ∧
        ∀ b ∈ c.drop 1, b ≠ 0 ∧ b ≠ 7 ∧ b ≠ 13 ∧ b ≠ 10 ∧ b ≠ 32 ∧ b ≠ 44 ∧ b ≠ 58 := by
  unfold IsValidChannel
  by_cases hlen : (c.length ≤ 1 || 50 < c.length) = true
  · rw [if_pos hlen]
    simp only [Bool.or_eq_true, decide_eq_true_eq] at hlen
    simp only [Bool.false_eq_true, false_iff]
    rintro ⟨h1, h2, -⟩
    omega
  · rw [if_neg hlen]
    simp only [Bool.or_eq_true, decide_eq_true_eq, not_or, Nat.not_le, Nat.not_lt] at hlen
    obtain ⟨hl1, hl2⟩ := hlen
    by_cases hci : inChanStarts (c.headD 0) = true
    · rw [if_neg (by rw [hci]; decide)]
      rw [inChanStarts_iff] at hci
      by_cases h33 : c.headD 0 = 33
      · by_cases h7 : c.length < 7
        · rw [if_pos (by rw [Bool.and_eq_true, beq_iff_eq, Bool.or_eq_true]
                         exact ⟨h33, Or.inl (decide_eq_true h7)⟩)]
          simp only [Bool.false_eq_true, false_iff]
          rintro ⟨-, -, -, hID, -⟩
          exact absurd (hID h33).1 (by omega)
        · by_cases hall : ((c.drop 1).take 5).all isChanIDByte = true
          · have hcond : ¬((c.headD 0 == 33 &&
                (c.length < 7 || !(((c.drop 1).take 5).all isChanIDByte))) = true) := by
              rw [Bool.and_eq_true, Bool.or_eq_true]
              rintro ⟨-, h | h⟩
              · exact h7 (of_decide_eq_true h)
              · rw [hall] at h
                exact absurd h (by decide)
            rw [if_neg hcond]
            rw [List.all_eq_true] at hall
            rw [List.all_eq_true]
            constructor
            · intro h
              exact ⟨by omega, by omega, hci,
                fun _ => ⟨by omega, fun b hb => (isChanIDByte_iff b).mp (hall b hb)⟩,
                fun b hb => (notBadOctet_iff b).mp (h b hb)⟩
            · rintro ⟨-, -, -, -, h⟩ b hb
              exact (notBadOctet_iff b).mpr (h b hb)
          · have hcond : (c.headD 0 == 33 &&
                (c.length < 7 || !(((c.drop 1).take 5).all isChanIDByte))) = true := by
              rw [Bool.and_eq_true, beq_iff_eq, Bool.or_eq_true]
              refine ⟨h33, Or.inr ?_⟩
              rw [Bool.not_eq_true', Bool.eq_false_iff]
              exact hall
            rw [if_pos hcond]
            simp only [Bool.false_eq_true, false_iff]
            rintro ⟨-, -, -, hID, -⟩
            obtain ⟨-, hallP⟩ := hID h33
            exact hall (List.all_eq_true.mpr fun b hb => (isChanIDByte_iff b).mpr (hallP b hb))
      · have hcond : ¬((c.headD 0 == 33 &&
            (c.length < 7 || !(((c.drop 1).take 5).all isChanIDByte))) = true) := by
          rw [Bool.and_eq_true, beq_iff_eq]
          rintro ⟨h, -⟩
          exact h33 h
        rw [if_neg hcond]
        rw [List.all_eq_true]
        constructor
        · intro h
          exact ⟨by omega, by omega, hci, fun hh => absurd hh h33,
            fun b hb => (notBadOctet_iff b).mp (h b hb)⟩
        · rintro ⟨-, -, -, -, h⟩ b hb
          exact (notBadOctet_iff b).mpr (h b hb)
    · have hfalse : inChanStarts (c.headD 0) = false := Bool.eq_false_iff.mpr hci
      rw [if_pos (by rw [hfalse]; rfl)]
      simp only [Bool.false_eq_true, false_iff]
      rintro ⟨-, -, hs, -⟩
      exact hci ((inChanStarts_iff (c.headD 0)).mpr hs)

/-! The glob matcher. -/

/-- Whether the pattern contains the glob byte 42 ('*'). -/
def hasStar : List Nat → Bool
  | [] => false
  | b :: t => b == 42 || hasStar t

/-- Split a pattern on the glob byte 42 (strings.Split with separator "*"). -/
def splitOnStar : List Nat → List (List Nat)
  | [] => [[]]
  | b :: t =>
    if b == 42 then [] :: splitOnStar t
    else (b :: (splitOnStar t).headD []) :: (splitOnStar t).tail

/-- The middle-section loop of Glob: for each interior part, find its first
occurrence in the current input and drop everything through its end; none
when some part does not occur. -/
def globMiddle : List (List Nat) → List Nat → Option (List Nat)
  | [], input => some input
  | p :: ps, input =>
    match strIndex input p with
    | none => none
    | some i => globMiddle ps (input.drop (i + p.length))

/-- Glob from format.go. The pattern is the second argument (named match in
the source). -/
def Glob (input pat : List Nat) : Bool :=
  if pat = [] then input == pat
  else if pat = [42] then true
  else if (splitOnStar pat).length = 1 then input == pat
  else if !startsWith pat [42] && !startsWith input ((splitOnStar pat).headD []) then false
  else
    match globMiddle (((splitOnStar pat).drop 1).dropLast) input with
    | none => false
    | some rest =>
      endsWith pat [42] || endsWith rest ((splitOnStar pat).getLastD [])

example : Glob [104, 101, 121, 32, 121, 111] [104, 101, 121, 42] = true := by decide
example : Glob [104, 101, 121, 32, 121, 111] [42, 121, 111] = true := by decide
example : Glob [104, 111] [104, 42, 111] = true := by decide
example : Glob [97, 98, 99] [] = false := by decide
example : Glob [] [] = true := by decide
example : Glob [97, 110, 121] [42] = true := by decide
example : Glob [97, 98] [97, 42, 97, 42] = true := by decide

/-- The necessary condition exactly as the claim words it: the input starts
with the leading literal, the leading literal is consumed, then each
interior part is found (advancing past its first occurrence), and the
remainder ends with the last part unless the pattern ends with a glob. -/
def globClaimCheck (input pat : List Nat) : Bool :=
  startsWith input ((splitOnStar pat).headD []) &&
    match globMiddle (((splitOnStar pat).drop 1).dropLast)
        (input.drop ((splitOnStar pat).headD []).length) with
    | none => false
    | some rest =>
      endsWith pat [42] || endsWith rest ((splitOnStar pat).getLastD [])

theorem splitOnStar_ne_nil (l : List Nat) : splitOnStar l ≠ [] := by
  cases l with
  | nil => simp [splitOnStar]
  | cons b t =>
    unfold splitOnStar
    split <;> simp

theorem splitOnStar_length_ge_two {l : List Nat} (h : hasStar l = true) :
    2 ≤ (splitOnStar l).length := by
  induction l with
  | nil => exact absurd h (by decide)
  | cons b t ih =>
    unfold splitOnStar
    by_cases hb : (b == 42) = true
    · rw [if_pos hb]
      have := List.length_pos.mpr (splitOnStar_ne_nil t)
      simp only [List.length_cons]
      omega
    · rw [if_neg hb]
      have ht : hasStar t = true := by
        unfold hasStar at h
        rw [Bool.or_eq_true] at h
        rcases h with h1 | h1
        · exact absurd h1 hb
        · exact h1
      have h2 := ih ht
      simp only [List.length_cons, List.length_tail]
      omega

/-- C1 counterexample: the pattern a*a* (bytes 97 42 97 42) has a star and
does not begin with one, and Glob accepts the input ab (97 98), yet the
claim's condition fails: after consuming the leading literal a, the
remaining input b does not contain the interior part a. The code searches
interior parts from the start of the input, without consuming the leading
literal first. -/
theorem glob_leading_literal_not_consumed :
    hasStar [97, 42, 97, 42] = true ∧ startsWith [97, 42, 97, 42] [42] = false ∧
      Glob [97, 98] [97, 42, 97, 42] = true ∧
      globClaimCheck [97, 98] [97, 42, 97, 42] = false := by
  decide

/-- C1 (amended): for every pattern containing a star and not beginning with
one, Glob returns true only if the input starts with the leading literal
part and, searching the input from its beginning (the leading literal is
not consumed first; afterwards the cursor advances past the first occurrence
of each interior part in turn), every interior part is found, and the
remaining input ends with the last part unless the pattern ends with a star. -/
theorem glob_necessary (input pat : List Nat)
    (hstar : hasStar pat = true) (hlead : startsWith pat [42] = false)
    (hglob : Glob input pat = true) :
    startsWith input ((splitOnStar pat).headD []) = true ∧
      ∃ rest, globMiddle (((splitOnStar pat).drop 1).dropLast) input = some rest ∧
        (endsWith pat [42] = true ∨
          endsWith rest ((splitOnStar pat).getLastD []) = true) := by
  have hne : pat ≠ [] := by
    intro h
    rw [h] at hstar
    exact absurd hstar (by decide)
  have h42 : pat ≠ [42] := by
    intro h
    rw [h] at hlead
    exact absurd hlead (by decide)
  have hlen2 := splitOnStar_length_ge_two hstar
  unfold Glob at hglob
  rw [if_neg hne, if_neg h42, if_neg (by omega)] at hglob
  by_cases hsw : startsWith input ((splitOnStar pat).headD []) = true
  · rw [if_neg (by rw [hlead, hsw]; decide)] at hglob
    refine ⟨hsw, ?_⟩
    cases hmid : globMiddle (((splitOnStar pat).drop 1).dropLast) input with
    | none =>
      simp only [hmid] at hglob
      exact absurd hglob (by decide)
    | some rest =>
      simp only [hmid] at hglob
      rw [Bool.or_eq_true] at hglob
      exact ⟨rest, rfl, hglob⟩
  · rw [if_pos (by rw [hlead, Bool.eq_false_iff.mpr hsw]; decide)] at hglob
    exact absurd hglob (by decide)

/-- C1 witness: the amended necessary condition evaluated on the input abc
against the pattern a*c. -/
theorem glob_necessary_witness :
    hasStar [97, 42, 99] = true ∧ startsWith [97, 42, 99] [42] = false ∧
      Glob [97, 98, 99] [97, 42, 99] = true ∧
      (startsWith [97, 98, 99] ((splitOnStar [97, 42, 99]).headD []) = true ∧
        ∃ rest, globMiddle (((splitOnStar [97, 42, 99]).drop 1).dropLast) [97, 98, 99] =
            some rest ∧
          (endsWith [97, 42, 99] [42] = true ∨
            endsWith rest ((splitOnStar [97, 42, 99]).getLastD []) = true)) :=
  ⟨by decide, by decide, by decide,
    glob_necessary [97, 98, 99] [97, 42, 99] (by decide) (by decide) (by decide)⟩

/-! The text formatter. -/

/-- Fuel-driven scan replacing every leftmost non-overlapping occurrence of
old by new; the fuel only needs to reach the length of the scanned list, and
each step consumes at least one list element, so fuel equal to the initial
length is always enough. -/
def replaceGoF : Nat → List Nat → List Nat → List Nat → List Nat
  | 0, s, _, _ => s
  | _ + 1, [], _, _ => []
  | fuel + 1, a :: t, old, new =>
    if startsWith (a :: t) old then new ++ replaceGoF fuel (t.drop (old.length - 1)) old new
    else a :: replaceGoF fuel t old new

/-- strings.Replace(s, old, new, -1): for empty old, new is inserted before
and after every byte; otherwise every leftmost non-overlapping occurrence of
old is replaced by new. -/
def replaceAll (s old new : List Nat) : List Nat :=
  if old = [] then new ++ s.foldr (fun c acc => c :: new ++ acc) []
  else replaceGoF s.length s old new

example : replaceAll [97, 98, 97] [97] [120] = [120, 98, 120] := by decide
example : replaceAll [97, 97, 97] [97, 97] [98] = [98, 97] := by decide

/-- The format code table of format.go: each entry pairs the list of aliases
with the control-byte value, both as byte lists. -/
def codes : List (List (List Nat) × List Nat) := [
  ([[119, 104, 105, 116, 101]], [3, 48, 48]),
  ([[98, 108, 97, 99, 107]], [3, 48, 49]),
  ([[98, 108, 117, 101], [110, 97, 118, 121]], [3, 48, 50]),
  ([[103, 114, 101, 101, 110]], [3, 48, 51]),
  ([[114, 101, 100]], [3, 48, 52]),
  ([[98, 114, 111, 119, 110], [109, 97, 114, 111, 111, 110]], [3, 48, 53]),
  ([[112, 117, 114, 112, 108, 101]], [3, 48, 54]),
  ([[111, 114, 97, 110, 103, 101], [111, 108, 105, 118, 101], [103, 111, 108, 100]], [3, 48, 55]),
  ([[121, 101, 108, 108, 111, 119]], [3, 48, 56]),
  ([[108, 105, 103, 104, 116, 103, 114, 101, 101, 110], [108, 105, 109, 101]], [3, 48, 57]),
  ([[116, 101, 97, 108]], [3, 49, 48]),
  ([[99, 121, 97, 110]], [3, 49, 49]),
  ([[108, 105, 103, 104, 116, 98, 108, 117, 101], [114, 111, 121, 97, 108]], [3, 49, 50]),
  ([[108, 105, 103, 104, 116, 112, 117, 114, 112, 108, 101], [112, 105, 110, 107],
    [102, 117, 99, 104, 115, 105, 97]], [3, 49, 51]),
  ([[103, 114, 101, 121], [103, 114, 97, 121]], [3, 49, 52]),
  ([[108, 105, 103, 104, 116, 103, 114, 101, 121], [115, 105, 108, 118, 101, 114]], [3, 49, 53]),
  ([[98, 111, 108, 100], [98]], [2]),
  ([[105, 116, 97, 108, 105, 99], [105]], [29]),
  ([[114, 101, 115, 101, 116], [114]], [15]),
  ([[99, 108, 101, 97, 114], [99]], [3]),
  ([[114, 101, 118, 101, 114, 115, 101]], [22]),
  ([[117, 110, 100, 101, 114, 108, 105, 110, 101], [117, 108]], [31]),
  ([[99, 116, 99, 112]], [1])]

/-- Wrap an alias in braces: the literal token searched by Fmt and TrimFmt. -/
def fmtToken (a : List Nat) : List Nat := 123 :: (a ++ [125])

/-- The inner alias loop of Fmt and TrimFmt: replace every alias token of
one entry by val. -/
def replaceAliases (aliases : List (List Nat)) (val text : List Nat) : List Nat :=
  aliases.foldl (fun t a => replaceAll t (fmtToken a) val) text

/-- The early-exit scan of Fmt and TrimFmt: whether any opening brace byte
(0x7B) remains. -/
def hasOpenBrace : List Nat → Bool
  | [] => false
  | b :: t => b == 123 || hasOpenBrace t

/-- The entry loop of Fmt: substitute tokens entry by entry, returning as
soon as no opening brace remains. -/
def fmtLoop : List (List (List Nat) × List Nat) → List Nat → List Nat
  | [], text => text
  | e :: rest, text =>
    if hasOpenBrace (replaceAliases e.1 e.2 text) then
      fmtLoop rest (replaceAliases e.1 e.2 text)
    else replaceAliases e.1 e.2 text

/-- Fmt from format.go. -/
def Fmt (text : List Nat) : List Nat := fmtLoop codes text

/-- The entry loop of TrimFmt: like the Fmt loop but with the empty
replacement. -/
def trimLoop : List (List (List Nat) × List Nat) → List Nat → List Nat
  | [], text => text
  | e :: rest, text =>
    if hasOpenBrace (replaceAliases e.1 [] text) then
      trimLoop rest (replaceAliases e.1 [] text)
    else replaceAliases e.1 [] text

/-- TrimFmt from format.go. -/
def TrimFmt (text : List Nat) : List Nat := trimLoop codes text

/-- StripRaw from format.go: remove every entry's control value, entry by
entry, with no early exit. -/
def StripRaw (text : List Nat) : List Nat :=
  codes.foldl (fun t e => replaceAll t e.2 []) text

example : Fmt (fmtToken [114, 101, 100]) = [3, 48, 52] := by decide
example : Fmt (fmtToken [98]) = [2] := by decide
example : TrimFmt (fmtToken [114, 101, 100]) = [] := by decide
example : TrimFmt [123, 114, 101, 100, 125, 120] = [120] := by decide
example : StripRaw [3, 48, 52, 104] = [104] := by decide

theorem replaceGoF_no_brace (old' new : List Nat) :
    ∀ fuel s, hasOpenBrace s = false → replaceGoF fuel s (123 :: old') new = s := by
  intro fuel
  induction fuel with
  | zero =>
    intro s _
    rfl
  | succ f ih =>
    intro s hs
    cases s with
    | nil => rfl
    | cons a t =>
      have ha : (a == 123) = false ∧ hasOpenBrace t = false := by
        unfold hasOpenBrace at hs
        exact Bool.or_eq_false_iff.mp hs
      unfold replaceGoF
      rw [if_neg (by
        unfold startsWith
        rw [Bool.and_eq_true]
        rintro ⟨h1, -⟩
        rw [ha.1] at h1
        exact absurd h1 (by decide))]
      rw [ih t ha.2]

theorem replaceAll_no_brace {s : List Nat} (hs : hasOpenBrace s = false)
    (a new : List Nat) : replaceAll s (fmtToken a) new = s := by
  unfold replaceAll fmtToken
  rw [if_neg (by simp)]
  exact replaceGoF_no_brace _ _ _ s hs

theorem replaceAliases_no_brace {s : List Nat} (hs : hasOpenBrace s = false)
    (al : List (List Nat)) (val : List Nat) : replaceAliases al val s = s := by
  induction al with
  | nil => rfl
  | cons a rest ih =>
    unfold replaceAliases at ih ⊢
    simp only [List.foldl_cons]
    rw [replaceAll_no_brace hs, ih]

theorem trimFmt_no_brace {s : List Nat} (hs : hasOpenBrace s = false) : TrimFmt s = s := by
  unfold TrimFmt codes trimLoop
  rw [replaceAliases_no_brace hs, hs]
  simp

/-- C3 counterexample: on the input given by the brace-red-token splice
(bytes of the text obtained by wrapping a red token inside a broken red
token), one application of TrimFmt leaves a fresh recognized red token (the
removal of the inner token splices its surroundings into a new token after
table processing has moved past the red entry), so a second application
removes more and TrimFmt is not idempotent. -/
theorem trimFmt_not_idempotent :
    TrimFmt [123, 114, 101, 123, 114, 101, 100, 125, 100, 125] = [123, 114, 101, 100, 125] ∧
      TrimFmt (TrimFmt [123, 114, 101, 123, 114, 101, 100, 125, 100, 125]) ≠
        TrimFmt [123, 114, 101, 123, 114, 101, 100, 125, 100, 125] ∧
      strIndex (TrimFmt [123, 114, 101, 123, 114, 101, 100, 125, 100, 125])
          (fmtToken [114, 101, 100]) = some 0 := by
  decide

/-- C3 (amended): TrimFmt is idempotent on every input whose single
application leaves no opening brace byte; in general a removal can splice
the surrounding text into a new recognized token that survives the
remaining table entries, so a second application can remove more. -/
theorem trimFmt_idempotent_of_no_brace (s : List Nat)
    (h : hasOpenBrace (TrimFmt s) = false) : TrimFmt (TrimFmt s) = TrimFmt s :=
  trimFmt_no_brace h

/-- C3 witness: the amended statement evaluated on a red token followed by a
letter. -/
theorem trimFmt_idempotent_witness :
    hasOpenBrace (TrimFmt [123, 114, 101, 100, 125, 120]) = false ∧
      TrimFmt (TrimFmt [123, 114, 101, 100, 125, 120]) =
        TrimFmt [123, 114, 101, 100, 125, 120] :=
  ⟨by decide, trimFmt_idempotent_of_no_brace _ (by decide)⟩

/-! StripRaw leaves no recognized control sequence behind. -/

theorem startsWith_mem : ∀ {s p : List Nat}, startsWith s p = true → ∀ {b : Nat}, b ∈ p → b ∈ s := by
  intro s
  induction s with
  | nil =>
    intro p h b hb
    cases p with
    | nil => exact absurd hb (List.not_mem_nil b)
    | cons o os =>
      rw [show startsWith [] (o :: os) = false from rfl] at h
      exact absurd h (by decide)
  | cons a t ih =>
    intro p h b hb
    cases p with
    | nil => exact absurd hb (List.not_mem_nil b)
    | cons o os =>
      unfold startsWith at h
      rw [Bool.and_eq_true, beq_iff_eq] at h
      rcases List.mem_cons.mp hb with h1 | h1
      · have hba : b = a := h1.trans h.1.symm
        rw [hba]
        exact List.mem_cons_self a t
      · exact List.mem_cons_of_mem a (ih h.2 h1)

theorem strIndex_none_of_not_mem {b : Nat} {old : List Nat} (hb : b ∈ old) :
    ∀ s, (∀ x ∈ s, x ≠ b) → strIndex s old = none := by
  intro s
  induction s with
  | nil =>
    intro _
    unfold strIndex
    rw [if_neg ?_]
    cases old with
    | nil => exact absurd hb (List.not_mem_nil b)
    | cons o os =>
      rw [show startsWith [] (o :: os) = false from rfl]
      decide
  | cons a t ih =>
    intro hall
    unfold strIndex
    rw [if_neg (fun h => hall b (startsWith_mem h hb) rfl),
      ih (fun x hx => hall x (List.mem_cons_of_mem a hx))]
    rfl

theorem mem_replaceGoF {old : List Nat} :
    ∀ fuel s x, x ∈ replaceGoF fuel s old [] → x ∈ s := by
  intro fuel
  induction fuel with
  | zero =>
    intro s x hx
    exact hx
  | succ f ih =>
    intro s x hx
    cases s with
    | nil => exact hx
    | cons a t =>
      unfold replaceGoF at hx
      by_cases hsw : startsWith (a :: t) old = true
      · rw [if_pos hsw] at hx
        simp only [List.nil_append] at hx
        exact List.mem_cons_of_mem a (List.drop_subset _ _ (ih _ _ hx))
      · rw [if_neg hsw] at hx
        rcases List.mem_cons.mp hx with h | h
        · rw [h]
          exact List.mem_cons_self a t
        · exact List.mem_cons_of_mem a (ih _ _ h)

theorem replaceGoF_single_ne {b : Nat} :
    ∀ fuel s, s.length ≤ fuel → ∀ x ∈ replaceGoF fuel s [b] [], x ≠ b := by
  intro fuel
  induction fuel with
  | zero =>
    intro s hs x hx
    rw [List.length_eq_zero.mp (Nat.le_zero.mp hs)] at hx
    exact absurd hx (List.not_mem_nil x)
  | succ f ih =>
    intro s hs x hx
    cases s with
    | nil => exact absurd hx (List.not_mem_nil x)
    | cons a t =>
      unfold replaceGoF at hx
      simp only [List.length_cons] at hs
      by_cases hab : a = b
      · have hsw : startsWith (a :: t) [b] = true := by
          unfold startsWith
          simp [hab, startsWith]
        rw [if_pos hsw] at hx
        simp only [List.nil_append] at hx
        exact ih t (by omega) x (by simpa using hx)
      · have hsw : ¬(startsWith (a :: t) [b] = true) := by
          unfold startsWith
          rw [Bool.and_eq_true, beq_iff_eq]
          rintro ⟨h1, -⟩
          exact hab h1
        rw [if_neg hsw] at hx
        rcases List.mem_cons.mp hx with h | h
        · rw [h]
          exact hab
        · exact ih t (by omega) x h

theorem foldr_insert_nil (s : List Nat) : s.foldr (fun c acc => c :: [] ++ acc) [] = s := by
  induction s with
  | nil => rfl
  | cons a t iht =>
    rw [List.foldr_cons, iht]
    rfl

theorem mem_replaceAll {x : Nat} {s old : List Nat} (hx : x ∈ replaceAll s old []) : x ∈ s := by
  unfold replaceAll at hx
  by_cases h : old = []
  · rw [if_pos h] at hx
    simp only [List.nil_append] at hx
    rw [foldr_insert_nil] at hx
    exact hx
  · rw [if_neg h] at hx
    exact mem_replaceGoF _ _ _ hx

theorem replaceAll_single_ne {b : Nat} {s : List Nat} : ∀ x ∈ replaceAll s [b] [], x ≠ b := by
  intro x hx
  unfold replaceAll at hx
  rw [if_neg (by simp)] at hx
  exact replaceGoF_single_ne _ _ le_rfl x hx

theorem stripRaw_no_control (text : List Nat) :
    ∀ x ∈ StripRaw text, x ≠ 1 ∧ x ≠ 2 ∧ x ≠ 3 ∧ x ≠ 15 ∧ x ≠ 22 ∧ x ≠ 29 ∧ x ≠ 31 := by
  intro x hx
  unfold StripRaw codes at hx
  simp only [List.foldl_cons, List.foldl_nil] at hx
  refine ⟨?_, ?_, ?_, ?_, ?_, ?_, ?_⟩
  · exact replaceAll_single_ne x hx
  · exact replaceAll_single_ne x
      (mem_replaceAll (mem_replaceAll (mem_replaceAll (mem_replaceAll
        (mem_replaceAll (mem_replaceAll hx))))))
  · exact replaceAll_single_ne x (mem_replaceAll (mem_replaceAll (mem_replaceAll hx)))
  · exact replaceAll_single_ne x
      (mem_replaceAll (mem_replaceAll (mem_replaceAll (mem_replaceAll hx))))
  · exact replaceAll_single_ne x (mem_replaceAll (mem_replaceAll hx))
  · exact replaceAll_single_ne x
      (mem_replaceAll (mem_replaceAll (mem_replaceAll (mem_replaceAll
        (mem_replaceAll hx)))))
  · exact replaceAll_single_ne x (mem_replaceAll hx)

/-- The list of control-byte values of the format table. -/
def codeVals : List (List Nat) := codes.map (fun e => e.2)

/-- C8: after StripRaw, no control-byte value from the format table occurs
anywhere in the output, whether surviving or newly formed by juxtaposition:
every color value contains the byte 3, which the clear entry removes
entirely, and each single-byte value is removed entirely by its own entry
and never reintroduced by the later ones. -/
theorem stripRaw_removes_all_codes (text v : List Nat) (hv : v ∈ codeVals) :
    strIndex (StripRaw text) v = none := by
  have habs := stripRaw_no_control text
  have key : ∀ b, b ∈ ([1, 2, 3, 15, 22, 29, 31] : List Nat) →
      ∀ w : List Nat, b ∈ w → strIndex (StripRaw text) w = none := by
    intro b hb w hw
    refine strIndex_none_of_not_mem hw _ (fun x hx => ?_)
    have h7 := habs x hx
    simp only [List.mem_cons, List.not_mem_nil, or_false] at hb
    rcases hb with rfl | rfl | rfl | rfl | rfl | rfl | rfl
    · exact h7.1
    · exact h7.2.1
    · exact h7.2.2.1
    · exact h7.2.2.2.1
    · exact h7.2.2.2.2.1
    · exact h7.2.2.2.2.2.1
    · exact h7.2.2.2.2.2.2
  simp only [codeVals, codes, List.map_cons, List.map_nil, List.mem_cons,
    List.not_mem_nil, or_false] at hv
  rcases hv with rfl | rfl | rfl | rfl | rfl | rfl | rfl | rfl | rfl | rfl | rfl | rfl |
    rfl | rfl | rfl | rfl | rfl | rfl | rfl | rfl | rfl | rfl | rfl
  · exact key 3 (by decide) _ (by decide)
  · exact key 3 (by decide) _ (by decide)
  · exact key 3 (by decide) _ (by decide)
  · exact key 3 (by decide) _ (by decide)
  · exact key 3 (by decide) _ (by decide)
  · exact key 3 (by decide) _ (by decide)
  · exact key 3 (by decide) _ (by decide)
  · exact key 3 (by decide) _ (by decide)
  · exact key 3 (by decide) _ (by decide)
  · exact key 3 (by decide) _ (by decide)
  · exact key 3 (by decide) _ (by decide)
  · exact key 3 (by decide) _ (by decide)
  · exact key 3 (by decide) _ (by decide)
  · exact key 3 (by decide) _ (by decide)
  · exact key 3 (by decide) _ (by decide)
  · exact key 3 (by decide) _ (by decide)
  · exact key 2 (by decide) _ (by decide)
  · exact key 29 (by decide) _ (by decide)
  · exact key 15 (by decide) _ (by decide)
  · exact key 3 (by decide) _ (by decide)
  · exact key 22 (by decide) _ (by decide)
  · exact key 31 (by decide) _ (by decide)
  · exact key 1 (by decide) _ (by decide)

/-- C8 witness: a concrete text containing the white color code, checked
against the white value. -/
theorem stripRaw_removes_all_codes_witness :
    ([3, 48, 48] ∈ codeVals) ∧ strIndex (StripRaw [3, 48, 48, 104, 105]) [3, 48, 48] = none :=
  ⟨by decide, stripRaw_removes_all_codes _ _ (by decide)⟩

/-!
Index-guarded versions of the eight operations. Every byte or table access
the Go code performs with an index is modelled by List.get?, and every slice
by a guarded drop; a failed access propagates none. Proving each version
equal to some of the structural version shows that no access is ever out of
range and every call returns a value.
-/

theorem get?_some_of_lt {α : Type} {l : List α} {i : Nat} (h : i < l.length) :
    ∃ x, l.get? i = some x := by
  induction l generalizing i with
  | nil => simp at h
  | cons a t ih =>
    cases i with
    | zero => exact ⟨a, rfl⟩
    | succ n =>
      simp only [List.length_cons] at h
      exact ih (by omega)

theorem get?_take_drop {α : Type} (l : List α) (i : Nat) (x : α) (h : l.get? i = some x) :
    l.drop i = x :: l.drop (i + 1) := by
  induction l generalizing i with
  | nil => cases i <;> cases h
  | cons a t ih =>
    cases i with
    | zero =>
      cases h
      rfl
    | succ n => exact ih n h

theorem get?_zero_headD {α : Type} {l : List α} (h : l ≠ []) (d : α) :
    l.get? 0 = some (l.headD d) := by
  cases l with
  | nil => exact absurd rfl h
  | cons a t => rfl

theorem get?_last_getLastD {α : Type} :
    ∀ {l : List α}, l ≠ [] → ∀ d, l.get? (l.length - 1) = some (l.getLastD d) := by
  intro l
  induction l with
  | nil =>
    intro h
    exact absurd rfl h
  | cons a t ih =>
    intro _ d
    cases t with
    | nil => rfl
    | cons b u =>
      have hu := ih (by simp) a
      show (b :: u).get? ((b :: u).length - 1) = some ((b :: u).getLastD a)
      exact hu

theorem take_pred_drop_one {α : Type} (l : List α) :
    (l.drop 1).take (l.length - 1) = l.drop 1 := by
  rw [(List.length_drop 1 l).symm]
  exact List.take_length _

/-- Index-guarded loop testing p on bytes l at indices i, i+1, ..., i+k-1,
returning false on the first failure (the Go early-return pattern). -/
def loopChk (p : Nat → Bool) (l : List Nat) : Nat → Nat → Option Bool
  | _, 0 => some true
  | i, k + 1 =>
    match l.get? i with
    | none => none
    | some b => if p b then loopChk p l (i + 1) k else some false

theorem loopChk_eq (p : Nat → Bool) (l : List Nat) :
    ∀ k i, i + k ≤ l.length → loopChk p l i k = some (((l.drop i).take k).all p) := by
  intro k
  induction k with
  | zero =>
    intro i _
    rfl
  | succ kk ih =>
    intro i h
    obtain ⟨x, hx⟩ := @get?_some_of_lt _ l i (by omega)
    unfold loopChk
    simp only [hx]
    rw [get?_take_drop l i x hx, List.take_succ_cons, List.all_cons]
    by_cases hp : p x = true
    · rw [if_pos hp, hp, Bool.true_and, ih (i + 1) (by omega)]
    · rw [if_neg hp, Bool.eq_false_iff.mpr hp, Bool.false_and]

/-- Index-guarded version of the Fmt and TrimFmt brace scan. -/
def braceScanChk (l : List Nat) : Nat → Nat → Option Bool
  | _, 0 => some false
  | c, k + 1 =>
    match l.get? c with
    | none => none
    | some b => if b == 123 then some true else braceScanChk l (c + 1) k

theorem braceScanChk_eq (l : List Nat) :
    ∀ k c, c + k ≤ l.length →
      braceScanChk l c k = some (hasOpenBrace ((l.drop c).take k)) := by
  intro k
  induction k with
  | zero =>
    intro c _
    rfl
  | succ kk ih =>
    intro c h
    obtain ⟨x, hx⟩ := @get?_some_of_lt _ l c (by omega)
    unfold braceScanChk
    simp only [hx]
    rw [get?_take_drop l c x hx, List.take_succ_cons]
    unfold hasOpenBrace
    by_cases hb : (x == 123) = true
    · rw [if_pos hb, hb, Bool.true_or]
    · rw [if_neg hb, Bool.eq_false_iff.mpr hb, Bool.false_or, ih (c + 1) (by omega)]

theorem braceScanChk_full (l : List Nat) : braceScanChk l 0 l.length = some (hasOpenBrace l) := by
  rw [braceScanChk_eq l l.length 0 (by omega), List.drop_zero, List.take_length]

/-- Index-guarded left fold over the elements of l at indices i, ..., i+k-1
(the Go indexed-for-loop pattern). -/
def foldChk {α β : Type} (f : β → α → β) (l : List α) : Nat → Nat → β → Option β
  | _, 0, acc => some acc
  | i, k + 1, acc =>
    match l.get? i with
    | none => none
    | some x => foldChk f l (i + 1) k (f acc x)

theorem foldChk_eq {α β : Type} (f : β → α → β) (l : List α) :
    ∀ k i acc, i + k ≤ l.length →
      foldChk f l i k acc = some (((l.drop i).take k).foldl f acc) := by
  intro k
  induction k with
  | zero =>
    intro i acc _
    rfl
  | succ kk ih =>
    intro i acc h
    obtain ⟨x, hx⟩ := @get?_some_of_lt _ l i (by omega)
    unfold foldChk
    simp only [hx]
    rw [get?_take_drop l i x hx, List.take_succ_cons, List.foldl_cons, ih (i + 1) _ (by omega)]

theorem foldChk_full {α β : Type} (f : β → α → β) (l : List α) (acc : β) :
    foldChk f l 0 l.length acc = some (l.foldl f acc) := by
  rw [foldChk_eq f l l.length 0 acc (by omega), List.drop_zero, List.take_length]

/-- Index-guarded ToRFC1459 body: builds the output from input bytes at
indices i, ..., i+k-1. -/
def toRFC1459Go (input : List Nat) : Nat → Nat → Option (List Nat)
  | _, 0 => some []
  | i, k + 1 =>
    match input.get? i with
    | none => none
    | some b =>
      match toRFC1459Go input (i + 1) k with
      | none => none
      | some rest => some (foldByte b ++ rest)

theorem toRFC1459Go_eq (input : List Nat) :
    ∀ k i, i + k ≤ input.length →
      toRFC1459Go input i k = some (ToRFC1459 ((input.drop i).take k)) := by
  intro k
  induction k with
  | zero =>
    intro i _
    rfl
  | succ kk ih =>
    intro i h
    obtain ⟨x, hx⟩ := @get?_some_of_lt _ input i (by omega)
    unfold toRFC1459Go
    simp only [hx]
    rw [ih (i + 1) (by omega), get?_take_drop input i x hx, List.take_succ_cons]
    rfl

/-- Index-guarded ToRFC1459. -/
def ToRFC1459Chk (input : List Nat) : Option (List Nat) := toRFC1459Go input 0 input.length

theorem toRFC1459Chk_eq (input : List Nat) : ToRFC1459Chk input = some (ToRFC1459 input) := by
  unfold ToRFC1459Chk
  rw [toRFC1459Go_eq input input.length 0 (by omega), List.drop_zero, List.take_length]

/-- Index-guarded IsValidChannel, mirroring each indexed access of the Go
code. -/
def IsValidChannelChk (channel : List Nat) : Option Bool :=
  if channel.length ≤ 1 || 50 < channel.length then some false
  else
    match channel.get? 0 with
    | none => none
    | some c0 =>
      if !(inChanStarts c0) then some false
      else if c0 == 33 then
        (if channel.length < 7 then some false
         else
           match loopChk isChanIDByte channel 1 5 with
           | none => none
           | some ok =>
             if ok then loopChk (fun b => !(isBadOctet b)) channel 1 (channel.length - 1)
             else some false)
      else loopChk (fun b => !(isBadOctet b)) channel 1 (channel.length - 1)

theorem isValidChannelChk_eq (c : List Nat) : IsValidChannelChk c = some (IsValidChannel c) := by
  unfold IsValidChannelChk IsValidChannel
  by_cases hlen : (c.length ≤ 1 || 50 < c.length) = true
  · rw [if_pos hlen, if_pos hlen]
  · rw [if_neg hlen, if_neg hlen]
    have h2 : 2 ≤ c.length := by
      by_contra hcon
      exact hlen (by
        rw [Bool.or_eq_true]
        exact Or.inl (decide_eq_true (by omega)))
    have hcne : c ≠ [] := by
      intro h
      rw [h] at h2
      simp at h2
    simp only [get?_zero_headD hcne 0]
    by_cases hstart : (!(inChanStarts (c.headD 0))) = true
    · rw [if_pos hstart, if_pos hstart]
    · rw [if_neg hstart, if_neg hstart]
      have hloopBad : loopChk (fun b => !(isBadOctet b)) c 1 (c.length - 1) =
          some ((c.drop 1).all (fun b => !(isBadOctet b))) := by
        rw [loopChk_eq _ c (c.length - 1) 1 (by omega), take_pred_drop_one]
      by_cases h33 : (c.headD 0 == 33) = true
      · rw [if_pos h33]
        by_cases h7 : c.length < 7
        · rw [if_pos h7]
          rw [if_pos (by
            rw [Bool.and_eq_true, Bool.or_eq_true]
            exact ⟨h33, Or.inl (decide_eq_true h7)⟩)]
        · rw [if_neg h7]
          have hid : loopChk isChanIDByte c 1 5 =
              some (((c.drop 1).take 5).all isChanIDByte) :=
            loopChk_eq isChanIDByte c 5 1 (by omega)
          simp only [hid]
          by_cases hall : ((c.drop 1).take 5).all isChanIDByte = true
          · rw [if_pos hall]
            rw [if_neg (by
              rw [Bool.and_eq_true, Bool.or_eq_true]
              rintro ⟨-, hor | hor⟩
              · exact h7 (of_decide_eq_true hor)
              · rw [hall] at hor
                exact absurd hor (by decide))]
            exact hloopBad
          · rw [if_neg hall]
            rw [if_pos (by
              rw [Bool.and_eq_true, Bool.or_eq_true]
              refine ⟨h33, Or.inr ?_⟩
              rw [Bool.not_eq_true', Bool.eq_false_iff]
              exact hall)]
      · rw [if_neg h33]
        rw [if_neg (by
          rw [Bool.and_eq_true]
          rintro ⟨hx, -⟩
          exact h33 hx)]
        exact hloopBad

/-- Index-guarded IsValidNick. -/
def IsValidNickChk (nick : List Nat) : Option Bool :=
  if nick.length ≤ 0 then some false
  else
    match (ToRFC1459 nick).get? 0 with
    | none => none
    | some c0 =>
      if c0 < 65 || 125 < c0 then some false
      else loopChk nickByte (ToRFC1459 nick) 1 ((ToRFC1459 nick).length - 1)

theorem isValidNickChk_eq (nick : List Nat) : IsValidNickChk nick = some (IsValidNick nick) := by
  unfold IsValidNickChk IsValidNick nickFolded
  cases nick with
  | nil => rfl
  | cons a t =>
    rw [if_neg (by simp), if_neg (by simp)]
    have hne := toRFC1459_cons_ne_nil a t
    simp only [get?_zero_headD hne 0]
    by_cases hc : ((ToRFC1459 (a :: t)).headD 0 < 65 || 125 < (ToRFC1459 (a :: t)).headD 0) = true
    · rw [if_pos hc, if_pos hc]
    · rw [if_neg hc, if_neg hc]
      have hpos : 0 < (ToRFC1459 (a :: t)).length := List.length_pos.mpr hne
      rw [loopChk_eq nickByte _ ((ToRFC1459 (a :: t)).length - 1) 1 (by omega),
        take_pred_drop_one]

/-- Index-guarded body of IsValidUser after the tilde handling. -/
def userBodyChk (m : List Nat) : Option Bool :=
  match m.get? 0 with
  | none => none
  | some c0 =>
    if (c0 < 65 || 74 < c0) && (c0 < 97 || 122 < c0) && (c0 < 48 || 57 < c0) then some false
    else loopChk userByte m 1 (m.length - 1)

/-- Guarded slice l[i:], none when i exceeds the length. -/
def sliceFrom (l : List Nat) (i : Nat) : Option (List Nat) :=
  if i ≤ l.length then some (l.drop i) else none

/-- Index-guarded IsValidUser. -/
def IsValidUserChk (name : List Nat) : Option Bool :=
  if name.length ≤ 0 then some false
  else
    match (ToRFC1459 name).get? 0 with
    | none => none
    | some c0 =>
      if c0 == 126 then
        (if (ToRFC1459 name).length < 2 then some false
         else
           match sliceFrom (ToRFC1459 name) 1 with
           | none => none
           | some m => userBodyChk m)
      else userBodyChk (ToRFC1459 name)

theorem userBodyChk_eq {m : List Nat} (hm : m ≠ []) : userBodyChk m = some (userBody m) := by
  unfold userBodyChk userBody
  simp only [get?_zero_headD hm 0]
  by_cases hc : ((m.headD 0 < 65 || 74 < m.headD 0) && (m.headD 0 < 97 || 122 < m.headD 0) &&
      (m.headD 0 < 48 || 57 < m.headD 0)) = true
  · rw [if_pos hc, if_pos hc]
  · rw [if_neg hc, if_neg hc]
    have hpos : 0 < m.length := List.length_pos.mpr hm
    rw [loopChk_eq userByte m (m.length - 1) 1 (by omega), take_pred_drop_one]

theorem isValidUserChk_eq (name : List Nat) : IsValidUserChk name = some (IsValidUser name) := by
  unfold IsValidUserChk IsValidUser userFolded
  cases name with
  | nil => rfl
  | cons a t =>
    rw [if_neg (show ¬((a :: t).length ≤ 0) by simp),
      if_neg (show ¬((a :: t).length ≤ 0) by simp)]
    have hne := toRFC1459_cons_ne_nil a t
    simp only [get?_zero_headD hne 0]
    by_cases h126 : ((ToRFC1459 (a :: t)).headD 0 == 126) = true
    · rw [if_pos h126, if_pos h126]
      by_cases hlen2 : (ToRFC1459 (a :: t)).length < 2
      · rw [if_pos hlen2, if_pos hlen2]
      · rw [if_neg hlen2, if_neg hlen2]
        have hpos : 0 < (ToRFC1459 (a :: t)).length := List.length_pos.mpr hne
        have hslice : sliceFrom (ToRFC1459 (a :: t)) 1 =
            some ((ToRFC1459 (a :: t)).drop 1) := by
          unfold sliceFrom
          rw [if_pos (show 1 ≤ (ToRFC1459 (a :: t)).length by omega)]
        simp only [hslice]
        exact userBodyChk_eq (by
          intro h
          rw [List.drop_eq_nil_iff] at h
          omega)
    · rw [if_neg h126, if_neg h126]
      exact userBodyChk_eq hne

/-- Index-guarded entry loop of Fmt over the code table entries at indices
i, ..., i+k-1, with the guarded alias loop and brace scan inside. -/
def fmtLoopChk : Nat → Nat → List Nat → Option (List Nat)
  | _, 0, text => some text
  | i, k + 1, text =>
    match codes.get? i with
    | none => none
    | some e =>
      match foldChk (fun t a => replaceAll t (fmtToken a) e.2) e.1 0 e.1.length text with
      | none => none
      | some t2 =>
        match braceScanChk t2 0 t2.length with
        | none => none
        | some more => if more then fmtLoopChk (i + 1) k t2 else some t2

/-- Index-guarded Fmt. -/
def FmtChk (text : List Nat) : Option (List Nat) := fmtLoopChk 0 codes.length text

theorem fmtLoopChk_eq :
    ∀ k i text, i + k ≤ codes.length →
      fmtLoopChk i k text = some (fmtLoop ((codes.drop i).take k) text) := by
  intro k
  induction k with
  | zero =>
    intro i text _
    rfl
  | succ kk ih =>
    intro i text h
    obtain ⟨e, he⟩ := @get?_some_of_lt _ codes i (by omega)
    unfold fmtLoopChk
    simp only [he, foldChk_full, braceScanChk_full]
    rw [get?_take_drop codes i e he, List.take_succ_cons]
    unfold fmtLoop replaceAliases
    by_cases hbr : hasOpenBrace (e.1.foldl (fun t a => replaceAll t (fmtToken a) e.2) text) = true
    · rw [if_pos hbr, if_pos hbr, ih (i + 1) _ (by omega)]
    · rw [if_neg hbr, if_neg hbr]

theorem fmtChk_eq (text : List Nat) : FmtChk text = some (Fmt text) := by
  unfold FmtChk Fmt
  rw [fmtLoopChk_eq codes.length 0 text (by omega), List.drop_zero, List.take_length]

/-- Index-guarded entry loop of TrimFmt. -/
def trimLoopChk : Nat → Nat → List Nat → Option (List Nat)
  | _, 0, text => some text
  | i, k + 1, text =>
    match codes.get? i with
    | none => none
    | some e =>
      match foldChk (fun t a => replaceAll t (fmtToken a) []) e.1 0 e.1.length text with
      | none => none
      | some t2 =>
        match braceScanChk t2 0 t2.length with
        | none => none
        | some more => if more then trimLoopChk (i + 1) k t2 else some t2

/-- Index-guarded TrimFmt. -/
def TrimFmtChk (text : List Nat) : Option (List Nat) := trimLoopChk 0 codes.length text

theorem trimLoopChk_eq :
    ∀ k i text, i + k ≤ codes.length →
      trimLoopChk i k text = some (trimLoop ((codes.drop i).take k) text) := by
  intro k
  induction k with
  | zero =>
    intro i text _
    rfl
  | succ kk ih =>
    intro i text h
    obtain ⟨e, he⟩ := @get?_some_of_lt _ codes i (by omega)
    unfold trimLoopChk
    simp only [he, foldChk_full, braceScanChk_full]
    rw [get?_take_drop codes i e he, List.take_succ_cons]
    unfold trimLoop replaceAliases
    by_cases hbr : hasOpenBrace (e.1.foldl (fun t a => replaceAll t (fmtToken a) []) text) = true
    · rw [if_pos hbr, if_pos hbr, ih (i + 1) _ (by omega)]
    · rw [if_neg hbr, if_neg hbr]

theorem trimFmtChk_eq (text : List Nat) : TrimFmtChk text = some (TrimFmt text) := by
  unfold TrimFmtChk TrimFmt
  rw [trimLoopChk_eq codes.length 0 text (by omega), List.drop_zero, List.take_length]

/-- Index-guarded StripRaw: the entry loop accesses the code table by
index. -/
def StripRawChk (text : List Nat) : Option (List Nat) :=
  foldChk (fun t e => replaceAll t e.2 []) codes 0 codes.length text

theorem stripRawChk_eq (text : List Nat) : StripRawChk text = some (StripRaw text) :=
  foldChk_full _ codes text

theorem startsWith_length {s p : List Nat} (h : startsWith s p = true) : p.length ≤ s.length := by
  induction p generalizing s with
  | nil => simp
  | cons b q ih =>
    cases s with
    | nil =>
      rw [show startsWith [] (b :: q) = false from rfl] at h
      exact absurd h (by decide)
    | cons a t =>
      unfold startsWith at h
      rw [Bool.and_eq_true] at h
      have := ih h.2
      simp only [List.length_cons]
      omega

theorem strIndex_bound :
    ∀ (s sub : List Nat) i, strIndex s sub = some i → i + sub.length ≤ s.length := by
  intro s
  induction s with
  | nil =>
    intro sub i h
    unfold strIndex at h
    by_cases hsw : startsWith [] sub = true
    · rw [if_pos hsw] at h
      cases h
      simpa using startsWith_length hsw
    · rw [if_neg hsw] at h
      cases h
  | cons a t ih =>
    intro sub i h
    unfold strIndex at h
    by_cases hsw : startsWith (a :: t) sub = true
    · rw [if_pos hsw] at h
      cases h
      simpa using startsWith_length hsw
    · rw [if_neg hsw] at h
      cases hidx : strIndex t sub with
      | none =>
        rw [hidx] at h
        cases h
      | some j =>
        rw [hidx] at h
        simp only [Option.map_some'] at h
        cases h
        have := ih sub j hidx
        simp only [List.length_cons]
        omega

/-- Index-guarded middle loop of Glob: the outer option is the access check,
the inner option the Contains result. -/
def globMiddleChk : List (List Nat) → List Nat → Option (Option (List Nat))
  | [], input => some (some input)
  | p :: ps, input =>
    match strIndex input p with
    | none => some none
    | some i =>
      match sliceFrom input (i + p.length) with
      | none => none
      | some rest => globMiddleChk ps rest

theorem globMiddleChk_eq : ∀ (ps : List (List Nat)) (input : List Nat),
    globMiddleChk ps input = some (globMiddle ps input) := by
  intro ps
  induction ps with
  | nil =>
    intro input
    rfl
  | cons p rest ih =>
    intro input
    unfold globMiddleChk globMiddle
    cases hidx : strIndex input p with
    | none => rfl
    | some i =>
      have hb := strIndex_bound input p i hidx
      have hslice : sliceFrom input (i + p.length) = some (input.drop (i + p.length)) := by
        unfold sliceFrom
        rw [if_pos hb]
      simp only [hslice]
      exact ih _

/-- Index-guarded Glob: the parts list accesses and the input slice are
guarded. -/
def GlobChk (input pat : List Nat) : Option Bool :=
  if pat = [] then some (input == pat)
  else if pat = [42] then some true
  else if (splitOnStar pat).length = 1 then some (input == pat)
  else
    match (splitOnStar pat).get? 0 with
    | none => none
    | some p0 =>
      if !startsWith pat [42] && !startsWith input p0 then some false
      else
        match globMiddleChk (((splitOnStar pat).drop 1).dropLast) input with
        | none => none
        | some none => some false
        | some (some rest) =>
          match (splitOnStar pat).get? ((splitOnStar pat).length - 1) with
          | none => none
          | some plast => some (endsWith pat [42] || endsWith rest plast)

theorem globChk_eq (input pat : List Nat) : GlobChk input pat = some (Glob input pat) := by
  unfold GlobChk Glob
  by_cases h1 : pat = []
  · rw [if_pos h1, if_pos h1]
  · rw [if_neg h1, if_neg h1]
    by_cases h2 : pat = [42]
    · rw [if_pos h2, if_pos h2]
    · rw [if_neg h2, if_neg h2]
      by_cases h3 : (splitOnStar pat).length = 1
      · rw [if_pos h3, if_pos h3]
      · rw [if_neg h3, if_neg h3]
        simp only [get?_zero_headD (splitOnStar_ne_nil pat) ([] : List Nat)]
        by_cases h4 : (!startsWith pat [42] &&
            !startsWith input ((splitOnStar pat).headD [])) = true
        · rw [if_pos h4, if_pos h4]
        · rw [if_neg h4, if_neg h4]
          simp only [globMiddleChk_eq]
          cases hmid : globMiddle (((splitOnStar pat).drop 1).dropLast) input with
          | none => rfl
          | some rest =>
            simp only [get?_last_getLastD (splitOnStar_ne_nil pat) ([] : List Nat)]

/-- C9: every operation is total over all input strings: the index-guarded
versions, in which every byte access, table access, and slice of the Go code
propagates an out-of-range failure, never fail, and return exactly the
structural versions' results: a string or a boolean for every input,
including the empty string. -/
theorem all_ops_total (s pat : List Nat) :
    FmtChk s = some (Fmt s) ∧ TrimFmtChk s = some (TrimFmt s) ∧
      StripRawChk s = some (StripRaw s) ∧
      IsValidChannelChk s = some (IsValidChannel s) ∧
      IsValidNickChk s = some (IsValidNick s) ∧
      IsValidUserChk s = some (IsValidUser s) ∧
      ToRFC1459Chk s = some (ToRFC1459 s) ∧
      GlobChk s pat = some (Glob s pat) :=
  ⟨fmtChk_eq s, trimFmtChk_eq s, stripRawChk_eq s, isValidChannelChk_eq s,
    isValidNickChk_eq s, isValidUserChk_eq s, toRFC1459Chk_eq s, globChk_eq s pat⟩

end Girc
